import Mathlib

/-!
# Verification of the `merkle.py` Merkle-tree implementation

A shallow embedding of `src/merkle.py` (classes `Node` and `MerkleTree`,
helper `grouper`) together with proofs about it.

The underlying cryptographic hash (`hash_alg`, SHA3-256 in the source) is an
external collaborator: every definition and theorem is parameterized over an
arbitrary function `hash_alg : String → String`.

The Python `while True` loop of `MerkleTree._get_root_node` is rendered as a
fuel-indexed recursion (`getRootNodeFuel`); `fuel = length of the node list`
is proved sufficient for every nonempty list, and the empty list is proved to
exhaust every amount of fuel (the source loop never terminates there).

Mutation of the `parent` back-reference performed inside `Node.__init__` is
modelled separately by an explicit heap (`Heap` = arena of `NodeRec` records
addressed by index), with `mkLeafS` / `mkInternalS` as the state-passing
renderings of the two constructor modes.
-/

/-- The distinct `ValueError` cases raised by `merkle.py`, one constructor per
distinct message, plus `outOfFuel`, which marks exhaustion of the fuel that
renders the unbounded `while True` loop of `_get_root_node` (reached only when
the loop would never terminate, as proved below). -/
inductive MerkleError where
  /-- `'Children must both be Nodes or both be None'` -/
  | invalidTopology
  /-- `'Must have a Value if Children are None'` -/
  | missingValue
  /-- `'Must NOT have a value if Children are not None'` -/
  | unexpectedValue
  /-- `'Transactions must be a unique list'` -/
  | duplicateLeaf
  /-- fuel for the `while True` loop ran out -/
  | outOfFuel
deriving DecidableEq, Repr

/-- A successfully constructed `Node`: either a leaf holding a caller-supplied
value, or an internal node holding exactly two children.  The `value` slot of
the Python object is immutable once set, so it is recovered by the function
`Node.value` below instead of being stored. -/
inductive Node where
  | leaf (value : String)
  | internal (left right : Node)
deriving DecidableEq, Repr

/-- The `value` attribute set by `Node.__init__`: the supplied value for a
leaf, `hash_alg(self.left.value + self.right.value)` for an internal node. -/
def Node.value (hash_alg : String → String) : Node → String
  | .leaf v => v
  | .internal l r => hash_alg (Node.value hash_alg l ++ Node.value hash_alg r)

/-- The `left` attribute of a constructed node. -/
def Node.leftChild : Node → Option Node
  | .leaf _ => none
  | .internal l _ => some l

/-- The `right` attribute of a constructed node. -/
def Node.rightChild : Node → Option Node
  | .leaf _ => none
  | .internal _ r => some r

/-- `Node.__init__(left, right, value)`: the argument-validation ladder of the
Python constructor, in its original order — a single present child raises
`'Children must both be Nodes or both be None'`; no children and no value
raises `'Must have a Value if Children are None'`; two children plus an
explicit value raises `'Must NOT have a value if Children are not None'`;
otherwise the node is built. -/
def Node.init (left : Option Node) (right : Option Node) (value : Option String) :
    Except MerkleError Node :=
  match left, right, value with
  | some _, none, _ => .error .invalidTopology
  | none, some _, _ => .error .invalidTopology
  | none, none, none => .error .missingValue
  | some _, some _, some _ => .error .unexpectedValue
  | none, none, some v => .ok (.leaf v)
  | some l, some r, none => .ok (.internal l r)

/-- Number of leaf nodes in a subtree. -/
def Node.leafCount : Node → Nat
  | .leaf _ => 1
  | .internal l r => l.leafCount + r.leafCount

/-- Number of internal nodes in a subtree.  Each internal node accounts for
exactly one invocation of `hash_alg` during construction. -/
def Node.internalCount : Node → Nat
  | .leaf _ => 0
  | .internal l r => l.internalCount + r.internalCount + 1

/-- Total number of nodes in a subtree. -/
def Node.size : Node → Nat
  | .leaf _ => 1
  | .internal l r => l.size + r.size + 1

/-- `grouper(iterable, 2)` from the source, which pads the final incomplete
group with the fill value `None`: the list chopped into consecutive pairs,
with a lone final element paired with `none`. -/
def grouper2 {α : Type} : List α → List (α × Option α)
  | [] => []
  | [x] => [(x, none)]
  | x :: y :: rest => (x, some y) :: grouper2 rest

/-- One iteration of the `while True` loop body of `_get_root_node`: for each
`(left, right)` produced by `grouper(node_stack, 2)`, append `left` unchanged
when `right is None`, else append `Node(left=left, right=right)`. -/
def pairRound (ns : List Node) : List Node :=
  (grouper2 ns).map fun p =>
    match p.2 with
    | none => p.1
    | some r => Node.internal p.1 r

/-- `MerkleTree._get_root_node`, with the unbounded `while True` loop rendered
by fuel: return the single remaining node, otherwise run one pairing round and
recurse. -/
def getRootNodeFuel : Nat → List Node → Option Node
  | 0, _ => none
  | fuel + 1, ns =>
    if ns.length = 1 then ns.head?
    else getRootNodeFuel fuel (pairRound ns)

/-- Insertion into the `OrderedDict` that backs `base_nodes`: an existing key
keeps its position and has its value replaced; a new key is appended. -/
def odInsert (l : List (String × Node)) (k : String) (v : Node) :
    List (String × Node) :=
  if l.any (fun p => p.1 = k) then
    l.map fun p => if p.1 = k then (k, v) else p
  else l ++ [(k, v)]

/-- The `base_nodes` ordered dictionary built by `MerkleTree.__init__` from
the input list: one leaf `Node(value=transaction)` per transaction, in input
order, later duplicates collapsing onto the first occurrence. -/
def buildBaseNodes (transactions : List String) : List (String × Node) :=
  transactions.foldl (fun acc t => odInsert acc t (Node.leaf t)) []

/-- The `MerkleTree` object: the `base_nodes` ordered dictionary and the
`root_node` returned by `_get_root_node`. -/
structure MerkleTree where
  base_nodes : List (String × Node)
  root_node : Node
deriving DecidableEq, Repr

/-- `MerkleTree.__init__(transactions_hashed)`: build `base_nodes`, raise
`'Transactions must be a unique list'` when duplicates collapsed the ordered
dictionary, then run `_get_root_node`.  The loop is given
`transactions_hashed.length` fuel, proved sufficient below whenever the input
is nonempty; `outOfFuel` therefore occurs exactly when the Python loop would
spin forever. -/
def MerkleTree.init (transactions_hashed : List String) :
    Except MerkleError MerkleTree :=
  let base := buildBaseNodes transactions_hashed
  if base.length ≠ transactions_hashed.length then .error .duplicateLeaf
  else
    match getRootNodeFuel transactions_hashed.length (base.map (·.2)) with
    | some root => .ok ⟨base, root⟩
    | none => .error .outOfFuel

/-- The `root_hash` property: `self.root_node.value`. -/
def MerkleTree.root_hash (hash_alg : String → String) (t : MerkleTree) : String :=
  t.root_node.value hash_alg

/-- `MerkleTree.is_valid_leaf(root_hash, leaf_value)`:
`leaf_value in self.base_nodes and root_hash == self.root_hash`. -/
def MerkleTree.is_valid_leaf (hash_alg : String → String) (t : MerkleTree)
    (root_hash leaf_value : String) : Bool :=
  t.base_nodes.any (fun p => p.1 = leaf_value) && root_hash == t.root_hash hash_alg

/-- A concrete stand-in hash used only to instantiate witnesses (any function
satisfies the theorems; the source plugs in SHA3-256 here). -/
def demoHash (s : String) : String := "#" ++ s

/-! ## Heap model for the `parent` back-reference mutation

`Node.__init__` ends with `self.left.parent = self; self.right.parent = self`
when children are present: it writes to *existing* objects.  To reason about
that write the two constructor modes are re-rendered over an explicit arena of
records addressed by list index. -/

/-- One Python `Node` object as a record of its four attributes, children and
parent held as arena indices. -/
structure NodeRec where
  value : String
  left : Option Nat
  right : Option Nat
  parent : Option Nat
deriving DecidableEq, Repr

/-- The object arena: index `i` addresses the `i`-th allocated node. -/
abbrev Heap := List NodeRec

/-- Overwrite the `parent` attribute of the node at index `i` (no-op on an
absent index). -/
def setParent (h : Heap) (i : Nat) (p : Option Nat) : Heap :=
  match h[i]? with
  | some n => h.set i { n with parent := p }
  | none => h

/-- `Node(value=v)` over the arena: allocate a fresh record with no children
and `parent = None`; nothing already allocated is touched. -/
def mkLeafS (h : Heap) (v : String) : Heap × Nat :=
  (h ++ [⟨v, none, none, none⟩], h.length)

/-- `Node(left=l, right=r)` over the arena: allocate a fresh record whose
value is `hash_alg(left.value + right.value)`, then perform the two writes
`self.left.parent = self` and `self.right.parent = self` on the existing child
records.  `none` when either index is unallocated. -/
def mkInternalS (hash_alg : String → String) (h : Heap) (l r : Nat) :
    Option (Heap × Nat) :=
  match h[l]?, h[r]? with
  | some ln, some rn =>
    let idx := h.length
    let h1 := h ++ [⟨hash_alg (ln.value ++ rn.value), some l, some r, none⟩]
    let h2 := setParent (setParent h1 l (some idx)) r (some idx)
    some (h2, idx)
  | _, _ => none

/-! ## Pairing-round lemmas -/

theorem grouper2_length {α : Type} (l : List α) :
    (grouper2 l).length = (l.length + 1) / 2 := by
  induction l using grouper2.induct with
  | case1 => simp [grouper2]
  | case2 x => simp [grouper2]
  | case3 x y rest ih => simp [grouper2, ih]; omega

theorem pairRound_length (ns : List Node) :
    (pairRound ns).length = (ns.length + 1) / 2 := by
  simp [pairRound, grouper2_length]

theorem pairRound_cons2 (x y : Node) (rest : List Node) :
    pairRound (x :: y :: rest) = Node.internal x y :: pairRound rest := rfl

theorem getLast?_cons_of_ne {α : Type} (a : α) (l : List α) (h : l ≠ []) :
    (a :: l).getLast? = l.getLast? := by
  cases l with
  | nil => exact absurd rfl h
  | cons b t => rw [List.getLast?_cons_cons]

/-- A pairing round over an odd-length sequence carries the last node through
unchanged. -/
theorem pairRound_getLast_odd (ns : List Node) (h : ns.length % 2 = 1) :
    (pairRound ns).getLast? = ns.getLast? := by
  induction ns using grouper2.induct with
  | case1 => simp at h
  | case2 x => rfl
  | case3 x y rest ih =>
    have hr : rest.length % 2 = 1 := by simp at h; omega
    have hne : rest ≠ [] := by intro he; rw [he] at hr; simp at hr
    have hpne : pairRound rest ≠ [] := by
      intro he
      have := pairRound_length rest
      rw [he] at this
      simp at this
      omega
    rw [pairRound_cons2, getLast?_cons_of_ne _ _ hpne, ih hr,
      List.getLast?_cons_cons, getLast?_cons_of_ne _ _ hne]

/-- The fuel rendering of the `while True` loop succeeds on every nonempty
node list when given at least `length`-many iterations of fuel. -/
theorem getRootNodeFuel_some :
    ∀ (fuel : Nat) (ns : List Node), 1 ≤ ns.length → ns.length ≤ fuel →
      ∃ r, getRootNodeFuel fuel ns = some r := by
  intro fuel
  induction fuel with
  | zero => intro ns h1 h2; omega
  | succ f ih =>
    intro ns h1 h2
    by_cases hlen : ns.length = 1
    · cases ns with
      | nil => simp at hlen
      | cons x t => exact ⟨x, by simp [getRootNodeFuel, hlen]⟩
    · have h2' : 2 ≤ ns.length := by omega
      have hplen : (pairRound ns).length = (ns.length + 1) / 2 := pairRound_length ns
      obtain ⟨r, hr⟩ := ih (pairRound ns) (by omega) (by omega)
      exact ⟨r, by simp [getRootNodeFuel, hlen, hr]⟩

/-! ## Ordered-dictionary lemmas -/

theorem odInsert_length_le (l : List (String × Node)) (k : String) (v : Node) :
    (odInsert l k v).length ≤ l.length + 1 := by
  unfold odInsert
  split <;> simp

theorem odInsert_of_not_mem (l : List (String × Node)) (k : String) (v : Node)
    (h : ¬ ∃ p ∈ l, p.1 = k) : odInsert l k v = l ++ [(k, v)] := by
  unfold odInsert
  rw [if_neg]
  simp only [List.any_eq_true, decide_eq_true_eq]
  exact h

theorem odInsert_length_of_mem (l : List (String × Node)) (k : String) (v : Node)
    (h : ∃ p ∈ l, p.1 = k) : (odInsert l k v).length = l.length := by
  unfold odInsert
  rw [if_pos]
  · simp
  · simp only [List.any_eq_true, decide_eq_true_eq]
    exact h

theorem odInsert_keys_mem (l : List (String × Node)) (k : String) (v : Node)
    (x : String) (h : ∃ p ∈ l, p.1 = x) : ∃ p ∈ odInsert l k v, p.1 = x := by
  obtain ⟨p, hp, hpx⟩ := h
  unfold odInsert
  split
  · refine ⟨if p.1 = k then (k, v) else p, List.mem_map_of_mem _ hp, ?_⟩
    split
    · rename_i hpk
      show k = x
      rw [← hpk]
      exact hpx
    · exact hpx
  · exact ⟨p, List.mem_append_left _ hp, hpx⟩

theorem odInsert_self_mem (l : List (String × Node)) (k : String) (v : Node) :
    ∃ p ∈ odInsert l k v, p.1 = k := by
  unfold odInsert
  split
  · rename_i hany
    simp only [List.any_eq_true, decide_eq_true_eq] at hany
    obtain ⟨p, hp, hpk⟩ := hany
    refine ⟨(k, v), ?_, rfl⟩
    rw [List.mem_map]
    exact ⟨p, hp, by rw [if_pos hpk]⟩
  · exact ⟨(k, v), List.mem_append_right _ (by simp), rfl⟩

theorem foldBase_length_le (ts : List String) :
    ∀ acc : List (String × Node),
      (List.foldl (fun acc t => odInsert acc t (Node.leaf t)) acc ts).length ≤
        acc.length + ts.length := by
  induction ts with
  | nil => intro acc; simp
  | cons t ts ih =>
    intro acc
    simp only [List.foldl_cons, List.length_cons]
    have h1 := ih (odInsert acc t (Node.leaf t))
    have h2 := odInsert_length_le acc t (Node.leaf t)
    omega

theorem foldBase_length_lt_of_mem_keys (ts : List String) :
    ∀ (acc : List (String × Node)) (x : String), x ∈ ts → (∃ p ∈ acc, p.1 = x) →
      (List.foldl (fun acc t => odInsert acc t (Node.leaf t)) acc ts).length <
        acc.length + ts.length := by
  induction ts with
  | nil => intro acc x hx _; simp at hx
  | cons t ts ih =>
    intro acc x hx hk
    simp only [List.foldl_cons, List.length_cons]
    rcases List.mem_cons.mp hx with he | hm
    · subst he
      have hlen := odInsert_length_of_mem acc x (Node.leaf x) hk
      have := foldBase_length_le ts (odInsert acc x (Node.leaf x))
      omega
    · have hk' : ∃ p ∈ odInsert acc t (Node.leaf t), p.1 = x :=
        odInsert_keys_mem acc t (Node.leaf t) x hk
      have := ih (odInsert acc t (Node.leaf t)) x hm hk'
      have h2 := odInsert_length_le acc t (Node.leaf t)
      omega

theorem foldBase_length_lt_of_not_nodup (ts : List String) :
    ∀ acc : List (String × Node), ¬ ts.Nodup →
      (List.foldl (fun acc t => odInsert acc t (Node.leaf t)) acc ts).length <
        acc.length + ts.length := by
  induction ts with
  | nil => intro acc h; exact absurd List.nodup_nil h
  | cons t ts ih =>
    intro acc h
    simp only [List.foldl_cons, List.length_cons]
    by_cases hm : t ∈ ts
    · have hk : ∃ p ∈ odInsert acc t (Node.leaf t), p.1 = t :=
        odInsert_self_mem acc t (Node.leaf t)
      have := foldBase_length_lt_of_mem_keys ts (odInsert acc t (Node.leaf t)) t hm hk
      have h2 := odInsert_length_le acc t (Node.leaf t)
      omega
    · have hnd : ¬ ts.Nodup := fun hnd => h (List.nodup_cons.mpr ⟨hm, hnd⟩)
      have := ih (odInsert acc t (Node.leaf t)) hnd
      have h2 := odInsert_length_le acc t (Node.leaf t)
      omega

theorem foldBase_eq_of_nodup (ts : List String) :
    ∀ acc : List (String × Node), ts.Nodup → (∀ t ∈ ts, ¬ ∃ p ∈ acc, p.1 = t) →
      List.foldl (fun acc t => odInsert acc t (Node.leaf t)) acc ts =
        acc ++ ts.map (fun t => (t, Node.leaf t)) := by
  induction ts with
  | nil => intro acc _ _; simp
  | cons t ts ih =>
    intro acc hnd hfresh
    simp only [List.foldl_cons, List.map_cons]
    have hins : odInsert acc t (Node.leaf t) = acc ++ [(t, Node.leaf t)] :=
      odInsert_of_not_mem acc t (Node.leaf t) (hfresh t (List.mem_cons_self t ts))
    rw [hins, ih (acc ++ [(t, Node.leaf t)]) (List.nodup_cons.mp hnd).2]
    · simp
    · intro u hu hex
      obtain ⟨p, hp, hpu⟩ := hex
      rcases List.mem_append.mp hp with hpa | hpt
      · exact hfresh u (List.mem_cons_of_mem t hu) ⟨p, hpa, hpu⟩
      · have hpt' : p = (t, Node.leaf t) := by simpa using hpt
        rw [hpt'] at hpu
        have htu : t = u := hpu
        exact (List.nodup_cons.mp hnd).1 (htu ▸ hu)

/-- On a duplicate-free input the `base_nodes` dictionary is exactly one leaf
node per transaction, in input order. -/
theorem buildBaseNodes_eq_of_nodup (ts : List String) (h : ts.Nodup) :
    buildBaseNodes ts = ts.map (fun t => (t, Node.leaf t)) := by
  unfold buildBaseNodes
  rw [foldBase_eq_of_nodup ts [] h (by simp)]
  simp

/-- On a nonempty duplicate-free input the constructor succeeds, with
`base_nodes` holding one leaf per transaction in input order. -/
theorem init_ok_of_nodup (ts : List String) (h1 : ts ≠ []) (h2 : ts.Nodup) :
    ∃ t : MerkleTree, MerkleTree.init ts = .ok t ∧
      t.base_nodes = ts.map (fun s => (s, Node.leaf s)) := by
  have hbase : buildBaseNodes ts = ts.map (fun s => (s, Node.leaf s)) :=
    buildBaseNodes_eq_of_nodup ts h2
  have hlen : (buildBaseNodes ts).length = ts.length := by rw [hbase]; simp
  have hpos : 1 ≤ ts.length := by
    cases ts with
    | nil => exact absurd rfl h1
    | cons x t => simp
  obtain ⟨r, hr⟩ := getRootNodeFuel_some ts.length ((buildBaseNodes ts).map (·.2))
    (by simp [hlen]; omega) (by simp [hlen])
  refine ⟨⟨buildBaseNodes ts, r⟩, ?_, hbase⟩
  unfold MerkleTree.init
  rw [if_neg (by omega), hr]

/-! ## Node-count lemmas -/

theorem pairRound_leafSum (ns : List Node) :
    ((pairRound ns).map Node.leafCount).sum = (ns.map Node.leafCount).sum := by
  induction ns using grouper2.induct with
  | case1 => rfl
  | case2 x => rfl
  | case3 x y rest ih =>
    rw [pairRound_cons2]
    simp only [List.map_cons, List.sum_cons, Node.leafCount, ih]
    omega

theorem getRootNodeFuel_leafCount :
    ∀ (fuel : Nat) (ns : List Node) (r : Node), getRootNodeFuel fuel ns = some r →
      r.leafCount = (ns.map Node.leafCount).sum := by
  intro fuel
  induction fuel with
  | zero => intro ns r h; simp [getRootNodeFuel] at h
  | succ f ih =>
    intro ns r h
    by_cases hlen : ns.length = 1
    · cases ns with
      | nil => simp at hlen
      | cons x t =>
        have ht : t = [] := by
          simp only [List.length_cons] at hlen
          exact List.eq_nil_of_length_eq_zero (by omega)
        subst ht
        unfold getRootNodeFuel at h
        simp at h
        simp [← h]
    · unfold getRootNodeFuel at h
      rw [if_neg hlen] at h
      rw [ih _ r h, pairRound_leafSum]

theorem leafCount_pos (n : Node) : 1 ≤ n.leafCount := by
  induction n with
  | leaf v => simp [Node.leafCount]
  | internal l r ihl ihr => simp [Node.leafCount]; omega

theorem leafCount_eq_internalCount_succ (n : Node) :
    n.leafCount = n.internalCount + 1 := by
  induction n with
  | leaf v => rfl
  | internal l r ihl ihr =>
    simp only [Node.leafCount, Node.internalCount, ihl, ihr]
    omega

theorem size_eq_leafCount_add_internalCount (n : Node) :
    n.size = n.leafCount + n.internalCount := by
  induction n with
  | leaf v => rfl
  | internal l r ihl ihr =>
    simp [Node.size, Node.leafCount, Node.internalCount, ihl, ihr]
    omega

/-! ## Heap lemmas -/

theorem setParent_getElem? (h : Heap) (i : Nat) (p : Option Nat) (j : Nat) :
    (setParent h i p)[j]? =
      if j = i then (h[j]?).map (fun n => { n with parent := p }) else h[j]? := by
  unfold setParent
  cases hi : h[i]? with
  | none =>
    by_cases hji : j = i
    · subst hji
      show h[j]? = if j = j then (h[j]?).map (fun n => { n with parent := p }) else h[j]?
      rw [hi, if_pos rfl]
      rfl
    · show h[j]? = if j = i then (h[j]?).map (fun n => { n with parent := p }) else h[j]?
      rw [if_neg hji]
  | some n =>
    have hlt : i < h.length := by
      by_contra hge
      rw [List.getElem?_eq_none (by omega)] at hi
      exact Option.noConfusion hi
    show (h.set i { n with parent := p })[j]? =
      if j = i then (h[j]?).map (fun n => { n with parent := p }) else h[j]?
    by_cases hji : j = i
    · subst hji
      rw [List.getElem?_set_eq_of_lt _ hlt, if_pos rfl, hi]
      rfl
    · rw [List.getElem?_set_ne (fun hij => hji hij.symm), if_neg hji]

theorem getElem?_append_lt {α : Type} (l1 l2 : List α) (i : Nat) (hi : i < l1.length) :
    (l1 ++ l2)[i]? = l1[i]? := by
  rw [List.getElem?_append]
  rw [if_pos hi]

/-- Unpacking a successful `mkInternalS`: the child indices are allocated, the
result heap is the appended arena with both children's `parent` overwritten,
and the returned index is the old arena size. -/
theorem mkInternalS_ok (hash_alg : String → String) (h : Heap) (l r : Nat)
    (h2 : Heap) (idx : Nat) (hok : mkInternalS hash_alg h l r = some (h2, idx)) :
    ∃ ln rn, h[l]? = some ln ∧ h[r]? = some rn ∧ idx = h.length ∧
      h2 = setParent
        (setParent (h ++ [⟨hash_alg (ln.value ++ rn.value), some l, some r, none⟩])
          l (some h.length)) r (some h.length) := by
  unfold mkInternalS at hok
  cases hl : h[l]? with
  | none => rw [hl] at hok; exact Option.noConfusion hok
  | some ln =>
    cases hr : h[r]? with
    | none => rw [hl, hr] at hok; exact Option.noConfusion hok
    | some rn =>
      rw [hl, hr] at hok
      simp only [Option.some.injEq, Prod.mk.injEq] at hok
      exact ⟨ln, rn, rfl, rfl, hok.2.symm, hok.1.symm⟩

/-! ## Constructor elimination lemmas -/

/-- A duplicated transaction collapses the ordered dictionary, so the length
check in `__init__` fires. -/
theorem init_error_of_not_nodup (ts : List String) (h : ¬ ts.Nodup) :
    MerkleTree.init ts = .error .duplicateLeaf := by
  have hlt := foldBase_length_lt_of_not_nodup ts [] h
  simp only [List.length_nil, Nat.zero_add] at hlt
  unfold MerkleTree.init
  rw [if_pos (by unfold buildBaseNodes; omega)]

/-- Everything a successful construction pins down: the input was
duplicate-free, `base_nodes` is one leaf per transaction in input order, and
the root is what the fuelled loop returns on the leaf row. -/
theorem init_ok_elim (ts : List String) (t : MerkleTree)
    (hok : MerkleTree.init ts = .ok t) :
    ts.Nodup ∧ t.base_nodes = ts.map (fun s => (s, Node.leaf s)) ∧
      getRootNodeFuel ts.length (ts.map Node.leaf) = some t.root_node := by
  have hnd : ts.Nodup := by
    by_contra hnd
    rw [init_error_of_not_nodup ts hnd] at hok
    exact Except.noConfusion hok
  have hbase : buildBaseNodes ts = ts.map (fun s => (s, Node.leaf s)) :=
    buildBaseNodes_eq_of_nodup ts hnd
  have hlen : (buildBaseNodes ts).length = ts.length := by rw [hbase]; simp
  have hmap : (buildBaseNodes ts).map (·.2) = ts.map Node.leaf := by
    rw [hbase, List.map_map]
    rfl
  unfold MerkleTree.init at hok
  rw [if_neg (by omega), hmap] at hok
  cases hr : getRootNodeFuel ts.length (ts.map Node.leaf) with
  | none =>
    rw [hr] at hok
    exact Except.noConfusion hok
  | some r =>
    rw [hr] at hok
    simp only [Except.ok.injEq] at hok
    refine ⟨hnd, ?_, ?_⟩
    · rw [← hok]
      exact hbase
    · rw [← hok]

/-! ## Claim theorems -/

/-- C1: in every pairing round over an odd-length node sequence the last
(unpaired) node is promoted unchanged to the next round; in particular, on
leaves `["a", "b", "c"]` round 1 is `[Node(a,b), c]` and the root hash of the
constructed tree is `Hash(Hash(a+b) + c)`. -/
theorem C1_odd_promotion (hash_alg : String → String) :
    (∀ ns : List Node, ns.length % 2 = 1 →
      (pairRound ns).getLast? = ns.getLast?) ∧
    pairRound [Node.leaf "a", Node.leaf "b", Node.leaf "c"] =
      [Node.internal (Node.leaf "a") (Node.leaf "b"), Node.leaf "c"] ∧
    (MerkleTree.init ["a", "b", "c"]).map (fun t => t.root_hash hash_alg) =
      .ok (hash_alg (hash_alg ("a" ++ "b") ++ "c")) :=
  ⟨pairRound_getLast_odd, rfl, rfl⟩

/-- C1 witness: the promotion clause applied to the concrete odd-length round
`[a, b, c]`. -/
theorem C1_odd_promotion_witness :
    (pairRound [Node.leaf "a", Node.leaf "b", Node.leaf "c"]).getLast? =
      ([Node.leaf "a", Node.leaf "b", Node.leaf "c"] : List Node).getLast? :=
  (C1_odd_promotion demoHash).1 [Node.leaf "a", Node.leaf "b", Node.leaf "c"]
    (by decide)

/-- C2: on the empty leaf sequence the source does NOT raise an explicit
`EmptyInputError` — no such error exists in `merkle.py`.  Instead the
`while True` loop of `_get_root_node` spins forever on the empty node stack
(every pairing round maps `[]` to `[]`, and the `len == 1` exit is never
taken): no amount of fuel makes the loop produce a node, so the embedded
constructor reports fuel exhaustion rather than any explicit rejection. -/
theorem C2_empty_input_loops :
    MerkleTree.init [] = .error .outOfFuel ∧
    ∀ fuel : Nat, getRootNodeFuel fuel [] = none := by
  refine ⟨rfl, ?_⟩
  intro fuel
  induction fuel with
  | zero => rfl
  | succ f ih =>
    unfold getRootNodeFuel
    rw [if_neg (by simp)]
    exact ih

/-- C3: an internal node built from two children has value
`Hash(left.value + right.value)` (left before right) and has exactly the two
given nodes as its children. -/
theorem C3_internal_value (hash_alg : String → String) (l r : Node) :
    Node.init (some l) (some r) none = .ok (Node.internal l r) ∧
    (Node.internal l r).value hash_alg =
      hash_alg (l.value hash_alg ++ r.value hash_alg) ∧
    (Node.internal l r).leftChild = some l ∧
    (Node.internal l r).rightChild = some r :=
  ⟨rfl, rfl, rfl, rfl⟩

/-- C5: a single-leaf tree's root IS the leaf node itself, and `root_hash`
returns the supplied value verbatim with no hashing applied. -/
theorem C5_single_leaf (hash_alg : String → String) (x : String) :
    MerkleTree.init [x] = .ok ⟨[(x, Node.leaf x)], Node.leaf x⟩ ∧
    MerkleTree.root_hash hash_alg ⟨[(x, Node.leaf x)], Node.leaf x⟩ = x :=
  ⟨rfl, rfl⟩

/-- C6: for every nonempty duplicate-free leaf sequence, construction
terminates — `length` fuel already suffices for the loop — and every pairing
round over two or more nodes strictly shrinks the sequence, from `k` nodes to
`⌈k/2⌉`. -/
theorem C6_construction_terminates (ts : List String) (h1 : ts ≠ [])
    (h2 : ts.Nodup) :
    (∃ t : MerkleTree, MerkleTree.init ts = .ok t) ∧
    (∀ ns : List Node, 2 ≤ ns.length →
      (pairRound ns).length = (ns.length + 1) / 2 ∧
      (pairRound ns).length < ns.length) := by
  constructor
  · obtain ⟨t, ht, _⟩ := init_ok_of_nodup ts h1 h2
    exact ⟨t, ht⟩
  · intro ns hlen
    have hp := pairRound_length ns
    exact ⟨hp, by omega⟩

/-- C6 witness: construction from the three distinct leaves `["a","b","c"]`
terminates with a tree. -/
theorem C6_construction_terminates_witness :
    ∃ t : MerkleTree, MerkleTree.init ["a", "b", "c"] = .ok t :=
  (C6_construction_terminates ["a", "b", "c"] (by decide) (by decide)).1

/-- C7: any leaf sequence containing two equal values is rejected with the
duplicate-transactions error (the ordered dictionary collapses duplicates, so
its size no longer matches the input length); in particular `["x", "x"]` is
rejected. -/
theorem C7_duplicate_rejected (ts : List String) (h : ¬ ts.Nodup) :
    MerkleTree.init ts = .error .duplicateLeaf :=
  init_error_of_not_nodup ts h

/-- C7 witness: the concrete duplicate input `["x", "x"]` from the spec. -/
theorem C7_duplicate_rejected_witness :
    MerkleTree.init ["x", "x"] = .error .duplicateLeaf :=
  C7_duplicate_rejected ["x", "x"] (by simp)

/-- C9: constructing a node with exactly one child present is rejected with
the mixed-arity (`InvalidTopology`) error, for either side, and that error
arises in no other configuration — nothing is silently coerced. -/
theorem C9_mixed_arity (left right : Option Node) (value : Option String) :
    Node.init left right value = .error .invalidTopology ↔
      left.isSome ≠ right.isSome := by
  cases left <;> cases right <;> cases value <;> simp [Node.init]

/-- C4: for a successfully constructed tree, `is_valid_leaf` returns true iff
the queried value is one of the originally supplied leaf values AND the
claimed root hash equals the tree's own root hash — a total boolean check
with no sibling-path verification and no query-time failure. -/
theorem C4_is_valid_leaf (hash_alg : String → String) (ts : List String)
    (t : MerkleTree) (hok : MerkleTree.init ts = .ok t)
    (claimed leaf_value : String) :
    t.is_valid_leaf hash_alg claimed leaf_value = true ↔
      (leaf_value ∈ ts ∧ claimed = t.root_hash hash_alg) := by
  obtain ⟨hnd, hbase, hroot⟩ := init_ok_elim ts t hok
  unfold MerkleTree.is_valid_leaf
  rw [hbase]
  simp only [Bool.and_eq_true, List.any_eq_true, List.mem_map, beq_iff_eq,
    decide_eq_true_eq]
  constructor
  · rintro ⟨⟨p, ⟨s, hs, hsp⟩, hp⟩, hc⟩
    refine ⟨?_, hc⟩
    rw [← hsp] at hp
    simp at hp
    rw [← hp]
    exact hs
  · rintro ⟨hmem, hc⟩
    exact ⟨⟨(leaf_value, Node.leaf leaf_value), ⟨leaf_value, hmem, rfl⟩, rfl⟩, hc⟩

/-- C4 witness: on the tree built from `["a", "b"]`, querying the member leaf
`"a"` with the correct root hash returns true. -/
theorem C4_is_valid_leaf_witness :
    (MerkleTree.mk [("a", Node.leaf "a"), ("b", Node.leaf "b")]
        (Node.internal (Node.leaf "a") (Node.leaf "b"))).is_valid_leaf demoHash
      (demoHash ("a" ++ "b")) "a" = true :=
  (C4_is_valid_leaf demoHash ["a", "b"]
      (MerkleTree.mk [("a", Node.leaf "a"), ("b", Node.leaf "b")]
        (Node.internal (Node.leaf "a") (Node.leaf "b"))) rfl
      (demoHash ("a" ++ "b")) "a").mpr ⟨by simp, rfl⟩

/-- C8 counterexample: constructing an internal node over two existing leaf
records CHANGES an attribute of an existing node — leaf 0's `parent` slot is
`None` before the construction and points at the new node (index 2)
afterwards, refuting "no attribute of an existing Node ever changes". -/
theorem C8_counterexample :
    (([⟨"a", none, none, none⟩, ⟨"b", none, none, none⟩] : Heap)[0]?).map
        NodeRec.parent = some none ∧
    (mkInternalS demoHash [⟨"a", none, none, none⟩, ⟨"b", none, none, none⟩]
        0 1).map (fun p => (p.1[0]?).map NodeRec.parent) =
      some (some (some 2)) :=
  ⟨rfl, rfl⟩

/-- C8 (amended): constructing an internal node from children at `l` and `r`
leaves `value`, `left` and `right` of every pre-existing node unchanged, and
leaves `parent` unchanged for every pre-existing node other than the two
children; the children's `parent` attribute, however, is overwritten to point
at the newly constructed node. -/
theorem C8_parent_write_only (hash_alg : String → String) (h : Heap) (l r : Nat)
    (h2 : Heap) (idx : Nat) (hok : mkInternalS hash_alg h l r = some (h2, idx))
    (i : Nat) (hi : i < h.length) :
    ((h2[i]?).map NodeRec.value = (h[i]?).map NodeRec.value ∧
     (h2[i]?).map NodeRec.left = (h[i]?).map NodeRec.left ∧
     (h2[i]?).map NodeRec.right = (h[i]?).map NodeRec.right) ∧
    (i ≠ l → i ≠ r → (h2[i]?).map NodeRec.parent = (h[i]?).map NodeRec.parent) ∧
    ((i = l ∨ i = r) → (h2[i]?).map NodeRec.parent = some (some idx)) := by
  obtain ⟨ln, rn, hl, hr, hidx, hh2⟩ := mkInternalS_ok hash_alg h l r h2 idx hok
  have happ :
      (h ++ [⟨hash_alg (ln.value ++ rn.value), some l, some r, none⟩])[i]? = h[i]? :=
    getElem?_append_lt _ _ i hi
  have hg : h2[i]? =
      if i = r then
        ((if i = l then (h[i]?).map (fun n => { n with parent := some h.length })
          else h[i]?).map (fun n => { n with parent := some h.length }))
      else
        (if i = l then (h[i]?).map (fun n => { n with parent := some h.length })
         else h[i]?) := by
    rw [hh2, setParent_getElem?, setParent_getElem?, happ]
  by_cases hir : i = r <;> by_cases hil : i = l
  · have hi_some : h[i]? = some rn := by rw [hir]; exact hr
    rw [if_pos hir, if_pos hil, hi_some] at hg
    simp only [Option.map_some'] at hg
    refine ⟨⟨?_, ?_, ?_⟩, fun h1 _ => absurd hil h1, fun _ => ?_⟩ <;>
      simp [hg, hi_some, hidx]
  · have hi_some : h[i]? = some rn := by rw [hir]; exact hr
    rw [if_pos hir, if_neg hil, hi_some] at hg
    simp only [Option.map_some'] at hg
    refine ⟨⟨?_, ?_, ?_⟩, fun _ h2c => absurd hir h2c, fun _ => ?_⟩ <;>
      simp [hg, hi_some, hidx]
  · have hi_some : h[i]? = some ln := by rw [hil]; exact hl
    rw [if_neg hir, if_pos hil, hi_some] at hg
    simp only [Option.map_some'] at hg
    refine ⟨⟨?_, ?_, ?_⟩, fun h1 _ => absurd hil h1, fun _ => ?_⟩ <;>
      simp [hg, hi_some, hidx]
  · rw [if_neg hir, if_neg hil] at hg
    refine ⟨⟨?_, ?_, ?_⟩, fun _ _ => ?_, fun hor => ?_⟩
    · rw [hg]
    · rw [hg]
    · rw [hg]
    · rw [hg]
    · rcases hor with hx | hx
      · exact absurd hx hil
      · exact absurd hx hir

/-- C8 witness: the amended theorem applied to the concrete two-leaf arena —
after the construction, leaf 0's `parent` points at the new node (index 2). -/
theorem C8_parent_write_only_witness :
    (([⟨"a", none, none, some 2⟩, ⟨"b", none, none, some 2⟩,
       ⟨demoHash ("a" ++ "b"), some 0, some 1, none⟩] : Heap)[0]?).map
        NodeRec.parent = some (some 2) :=
  (C8_parent_write_only demoHash
      [⟨"a", none, none, none⟩, ⟨"b", none, none, none⟩] 0 1
      [⟨"a", none, none, some 2⟩, ⟨"b", none, none, some 2⟩,
       ⟨demoHash ("a" ++ "b"), some 0, some 1, none⟩] 2 rfl 0 (by decide)).2.2
    (Or.inl rfl)

/-- C10: a successfully built tree over n leaf values has exactly n leaf
nodes, exactly n−1 internal nodes (so 2n−1 nodes in total) — hence exactly
n−1 hash invocations, since each internal-node construction performs exactly
one. -/
theorem C10_node_counts (ts : List String) (t : MerkleTree)
    (hok : MerkleTree.init ts = .ok t) :
    t.root_node.leafCount = ts.length ∧
    t.root_node.internalCount = ts.length - 1 ∧
    t.root_node.size = 2 * ts.length - 1 := by
  obtain ⟨hnd, hbase, hroot⟩ := init_ok_elim ts t hok
  have hsum : ∀ us : List String,
      ((us.map Node.leaf).map Node.leafCount).sum = us.length := by
    intro us
    induction us with
    | nil => rfl
    | cons u us ih =>
      simp only [List.map_cons, List.sum_cons, List.length_cons, ih,
        Node.leafCount]
      omega
  have hlc : t.root_node.leafCount = ts.length := by
    rw [getRootNodeFuel_leafCount ts.length _ _ hroot, hsum]
  have hic := leafCount_eq_internalCount_succ t.root_node
  have hsz := size_eq_leafCount_add_internalCount t.root_node
  have hpos := leafCount_pos t.root_node
  exact ⟨hlc, by omega, by omega⟩

/-- C10 witness: the tree over the three leaves `["a", "b", "c"]` has 3 leaf
nodes, 2 internal nodes and 5 nodes in total. -/
theorem C10_node_counts_witness :
    (MerkleTree.mk
        [("a", Node.leaf "a"), ("b", Node.leaf "b"), ("c", Node.leaf "c")]
        (Node.internal (Node.internal (Node.leaf "a") (Node.leaf "b"))
          (Node.leaf "c"))).root_node.leafCount = 3 ∧
    (MerkleTree.mk
        [("a", Node.leaf "a"), ("b", Node.leaf "b"), ("c", Node.leaf "c")]
        (Node.internal (Node.internal (Node.leaf "a") (Node.leaf "b"))
          (Node.leaf "c"))).root_node.internalCount = 2 :=
  ⟨(C10_node_counts ["a", "b", "c"]
      (MerkleTree.mk
        [("a", Node.leaf "a"), ("b", Node.leaf "b"), ("c", Node.leaf "c")]
        (Node.internal (Node.internal (Node.leaf "a") (Node.leaf "b"))
          (Node.leaf "c"))) rfl).1,
   (C10_node_counts ["a", "b", "c"]
      (MerkleTree.mk
        [("a", Node.leaf "a"), ("b", Node.leaf "b"), ("c", Node.leaf "c")]
        (Node.internal (Node.internal (Node.leaf "a") (Node.leaf "b"))
          (Node.leaf "c"))) rfl).2.1⟩
